import Mathlib

/-!
Verification of the SillyTavern Odysseia unified macro/code execution engine,
as documented in the repository (docs/PYTHON_SANDBOX_DESIGN.md, docs/FILE_FORMATS.md,
docs/REGEX_SYSTEM_ANALYSIS.md, the API documentation and the changelog).
The Python implementation fragments quoted in those documents are embedded
shallowly below and the specification's claims are settled against them.
-/

namespace Odysseia

/-! ## Sandboxed expression evaluator: AST security check

From `FORBIDDEN_NODES` in docs/PYTHON_SANDBOX_DESIGN.md: the sandbox walks the
parsed AST and rejects the snippet when any node's type is one of seven
forbidden node classes (`ast.Import`, `ast.ImportFrom`, `ast.FunctionDef`,
`ast.ClassDef`, `ast.AsyncFunctionDef`, `ast.Global`, `ast.Nonlocal`).
Python AST nodes are modelled as a rose tree tagged with the node class. -/

/-- The Python AST node classes relevant to the security check: the seven
forbidden classes together with ordinary expression/statement classes that the
checker leaves alone (lambdas, attribute access, deletion, calls, ...). -/
inductive NodeKind where
  | module | exprStmt | importNode | importFromNode | functionDef | classDef
  | asyncFunctionDef | globalDecl | nonlocalDecl
  | lambdaNode | attributeNode | deleteNode | callNode | nameNode
  | constantNode | binOpNode | boolOpNode | compareNode | ifExpNode
  deriving DecidableEq, Repr

/-- A Python AST, shallowly embedded: each node has a class and children. -/
inductive PyAst where
  | node (kind : NodeKind) (children : List PyAst)

/-- `FORBIDDEN_NODES` from docs/PYTHON_SANDBOX_DESIGN.md, in source order:
Import, ImportFrom, FunctionDef, ClassDef, AsyncFunctionDef, Global, Nonlocal. -/
def FORBIDDEN_NODES : List NodeKind :=
  [.importNode, .importFromNode, .functionDef, .classDef,
   .asyncFunctionDef, .globalDecl, .nonlocalDecl]

/-- The AST security check: accept iff no node anywhere in the tree has a
class listed in `FORBIDDEN_NODES` (a deny-list over the walked tree). -/
def securityCheck : PyAst → Bool
  | .node k cs => decide (k ∉ FORBIDDEN_NODES) && cs.attach.all (fun c => securityCheck c.1)
decreasing_by
  have := List.sizeOf_lt_of_mem c.2
  simp only [PyAst.node.sizeOf_spec]
  omega

/-- `t` has some node (itself or a descendant) of class `k`. -/
def containsKind (k : NodeKind) : PyAst → Bool
  | .node k' cs => (k' == k) || cs.attach.any (fun c => containsKind k c.1)
decreasing_by
  have := List.sizeOf_lt_of_mem c.2
  simp only [PyAst.node.sizeOf_spec]
  omega

/-- The allow-list that §4.2 of the specification describes: literals,
arithmetic/string/boolean operators, comparisons, conditionals, names and
calls (into whitelisted builtins and injected scope accessors), plus the
module/statement wrappers.  Lambdas, imports, class/function definitions,
attribute access (reflection) and deletion are not on it. -/
def specAllowedKinds : List NodeKind :=
  [.module, .exprStmt, .constantNode, .binOpNode, .boolOpNode,
   .compareNode, .ifExpNode, .nameNode, .callNode]

/-- A snippet consisting of a single lambda expression,
`lambda x: x` — a user-defined function. -/
def lambdaSnippet : PyAst :=
  .node .module [.node .exprStmt [.node .lambdaNode [.node .nameNode []]]]

/-- A snippet consisting of a single `import` statement. -/
def importSnippet : PyAst :=
  .node .module [.node .importNode []]

/-- A snippet using attribute access (the reflection entry point). -/
def attributeSnippet : PyAst :=
  .node .module [.node .exprStmt [.node .attributeNode [.node .nameNode []]]]

end Odysseia

namespace Odysseia

/-! ### C2 theorems -/

theorem securityCheck_node (k : NodeKind) (cs : List PyAst) :
    securityCheck (.node k cs) =
      (decide (k ∉ FORBIDDEN_NODES) && cs.all securityCheck) := by
  unfold securityCheck
  congr 1
  rw [Bool.eq_iff_iff]
  simp [List.all_eq_true]

theorem containsKind_node (k : NodeKind) (k' : NodeKind) (cs : List PyAst) :
    containsKind k (.node k' cs) = ((k' == k) || cs.any (containsKind k)) := by
  unfold containsKind
  congr 1
  rw [Bool.eq_iff_iff]
  simp [List.any_eq_true]

theorem securityCheck_iff_no_forbidden : ∀ t : PyAst,
    securityCheck t = true ↔ ∀ k ∈ FORBIDDEN_NODES, containsKind k t = false := by
  suffices h : ∀ n (t : PyAst), sizeOf t ≤ n →
      (securityCheck t = true ↔ ∀ k ∈ FORBIDDEN_NODES, containsKind k t = false) by
    intro t; exact h (sizeOf t) t le_rfl
  intro n
  induction n with
  | zero => intro t h; obtain ⟨k, cs⟩ := t; simp at h
  | succ n ih =>
    intro t h
    obtain ⟨k, cs⟩ := t
    have hcs : ∀ c ∈ cs, sizeOf c ≤ n := by
      intro c hc
      have := List.sizeOf_lt_of_mem hc
      simp only [PyAst.node.sizeOf_spec] at h
      omega
    rw [securityCheck_node]
    simp only [Bool.and_eq_true, decide_eq_true_eq, List.all_eq_true]
    constructor
    · rintro ⟨hk, hall⟩ k' hk'
      rw [containsKind_node]
      have h1 : (k == k') = false := by
        simp only [beq_eq_false_iff_ne, ne_eq]
        rintro rfl; exact hk hk'
      have h2 : cs.any (containsKind k') = false := by
        rw [List.any_eq_false]
        intro c hc
        have := (ih c (hcs c hc)).mp (hall c hc) k' hk'
        simp [this]
      simp [h1, h2]
    · intro hforb
      constructor
      · intro hk
        have := hforb k hk
        rw [containsKind_node] at this
        simp at this
      · intro c hc
        rw [ih c (hcs c hc)]
        intro k' hk'
        have := hforb k' hk'
        rw [containsKind_node] at this
        simp only [Bool.or_eq_false_iff, List.any_eq_false] at this
        simpa using this.2 c hc

/-- C2. Counterexample: the claim says every construct off the allow-list —
in particular user-defined functions — is rejected at parse time.  But the
AST check of `FORBIDDEN_NODES` is a deny-list: a snippet that is a single
`lambda` expression (a user-defined function, not on the specification's
allow-list) passes `securityCheck`, as does attribute access (reflection). -/
theorem c2_allowlist_counterexample :
    securityCheck lambdaSnippet = true ∧
    containsKind .lambdaNode lambdaSnippet = true ∧
    (NodeKind.lambdaNode ∈ specAllowedKinds) = False ∧
    securityCheck attributeSnippet = true := by
  refine ⟨?_, ?_, by simp [specAllowedKinds], ?_⟩ <;>
    simp [lambdaSnippet, attributeSnippet, securityCheck_node, containsKind_node,
      FORBIDDEN_NODES]

/-- C2 (amended). The sandbox's parse-time check is a deny-list, not an
allow-list: a snippet is accepted exactly when no node of its AST has one of
the seven classes in `FORBIDDEN_NODES` (import, from-import, function/class/
async-function definition, global, nonlocal).  Those constructs — e.g. an
`import` — are rejected without executing the snippet, but constructs merely
absent from the specification's allow-list (lambdas, attribute access) pass
the check: the walker fails open, not closed. -/
theorem c2_sandbox_deny_list :
    (∀ t : PyAst, securityCheck t = true ↔
      ∀ k ∈ FORBIDDEN_NODES, containsKind k t = false) ∧
    securityCheck importSnippet = false ∧
    securityCheck lambdaSnippet = true := by
  refine ⟨securityCheck_iff_no_forbidden, ?_, ?_⟩ <;>
    simp [importSnippet, lambdaSnippet, securityCheck_node, FORBIDDEN_NODES]

/-- C2 amended, witness: the deny-list characterization applied at a
constant-expression snippet, which is accepted. -/
theorem c2_sandbox_deny_list_witness :
    securityCheck (.node .module [.node .exprStmt [.node .constantNode []]]) = true :=
  (c2_sandbox_deny_list.1 _).mpr (by
    intro k hk
    fin_cases hk <;> simp [containsKind_node])

/-! ## Macro translator

`convert_tavern_macros_to_python` (docs/PYTHON_SANDBOX_DESIGN.md) rewrites the
legacy `\x7b\x7b...\x7d\x7d` macro syntax into `\x7b\x7bpython:...\x7d\x7d`
calls by running `re.sub` once per pattern, in dictionary order:
`char`, `user`, `time`, `date`, then `setvar`, `getvar`, `setglobalvar`,
`getglobalvar`.  `re.sub` scans left to right, replacing non-overlapping
matches; on a failed match attempt it advances one character.  The scan is
embedded below with fuel equal to the input length (every step consumes at
least one character, so the fuel never runs out). -/

/-- One `re.sub` pass: `try1 cs` returns `(replacement, rest)` when the
pattern matches at the start of `cs`.  On a match the replacement is emitted
and scanning resumes after the matched span; otherwise the head character is
kept and the scan advances by one. -/
def scanSub (try1 : List Char → Option (List Char × List Char)) :
    Nat → List Char → List Char
  | 0, cs => cs
  | _ + 1, [] => []
  | n + 1, c :: rest =>
    match try1 (c :: rest) with
    | some p => p.1 ++ scanSub try1 n p.2
    | none => c :: scanSub try1 n rest

/-- `re.sub` over a whole string (fuel = length). -/
def reSub (try1 : List Char → Option (List Char × List Char))
    (cs : List Char) : List Char :=
  scanSub try1 cs.length cs

/-- A literal pattern such as `\x7b\x7bchar\x7d\x7d`. -/
def tryLit (pat rep : List Char) (cs : List Char) :
    Option (List Char × List Char) :=
  if pat.isPrefixOf cs then some (rep, cs.drop pat.length) else none

/-- Argument parsing for the pattern `([^:\x7d]+)::([^\x7d]*)\x7d\x7d`
(the tail of the `setvar`/`setglobalvar` patterns): a non-empty greedy run
of characters other than `:` and `\x7d`, then `::`, then a greedy run of
non-`\x7d` characters, then the closing pair. -/
def parseSetvarArgs (cs : List Char) :
    Option (List Char × List Char × List Char) :=
  let name := cs.takeWhile (fun c => c ≠ ':' && c ≠ '}')
  if name.isEmpty then none
  else
    match cs.dropWhile (fun c => c ≠ ':' && c ≠ '}') with
    | ':' :: ':' :: r2 =>
      let value := r2.takeWhile (fun c => c ≠ '}')
      match r2.dropWhile (fun c => c ≠ '}') with
      | '}' :: '}' :: r4 => some (name, value, r4)
      | _ => none
    | _ => none

/-- Argument parsing for the pattern `([^\x7d]+)\x7d\x7d` (the tail of the
`getvar`/`getglobalvar` patterns). -/
def parseGetvarArgs (cs : List Char) : Option (List Char × List Char) :=
  let name := cs.takeWhile (fun c => c ≠ '}')
  if name.isEmpty then none
  else
    match cs.dropWhile (fun c => c ≠ '}') with
    | '}' :: '}' :: r => some (name, r)
    | _ => none

/-- The `setvar` pattern `\\\x7b\\\x7bsetvar::([^:\x7d]+)::([^\x7d]*)\\\x7d\\\x7d`
with replacement template `\x7b\x7bpython:setvar("\1", "\2")\x7d\x7d`. -/
def trySetvar (cs : List Char) : Option (List Char × List Char) :=
  if ("\x7b\x7bsetvar::".data).isPrefixOf cs then
    (parseSetvarArgs (cs.drop 10)).map fun p =>
      ("\x7b\x7bpython:setvar(\"".data ++ p.1 ++ "\", \"".data ++ p.2.1
        ++ "\")\x7d\x7d".data, p.2.2)
  else none

/-- The `getvar` pattern, replacement `\x7b\x7bpython:getvar("\1")\x7d\x7d`. -/
def tryGetvar (cs : List Char) : Option (List Char × List Char) :=
  if ("\x7b\x7bgetvar::".data).isPrefixOf cs then
    (parseGetvarArgs (cs.drop 10)).map fun p =>
      ("\x7b\x7bpython:getvar(\"".data ++ p.1 ++ "\")\x7d\x7d".data, p.2)
  else none

/-- The `setglobalvar` pattern. -/
def trySetglobalvar (cs : List Char) : Option (List Char × List Char) :=
  if ("\x7b\x7bsetglobalvar::".data).isPrefixOf cs then
    (parseSetvarArgs (cs.drop 16)).map fun p =>
      ("\x7b\x7bpython:setglobalvar(\"".data ++ p.1 ++ "\", \"".data ++ p.2.1
        ++ "\")\x7d\x7d".data, p.2.2)
  else none

/-- The `getglobalvar` pattern. -/
def tryGetglobalvar (cs : List Char) : Option (List Char × List Char) :=
  if ("\x7b\x7bgetglobalvar::".data).isPrefixOf cs then
    (parseGetvarArgs (cs.drop 16)).map fun p =>
      ("\x7b\x7bpython:getglobalvar(\"".data ++ p.1 ++ "\")\x7d\x7d".data, p.2)
  else none

/-- `convert_tavern_macros_to_python`: the eight `re.sub` passes applied in
dictionary order. -/
def convert_tavern_macros_to_python (s : String) : String :=
  String.mk <|
    reSub tryGetglobalvar <| reSub trySetglobalvar <|
    reSub tryGetvar <| reSub trySetvar <|
    reSub (tryLit "\x7b\x7bdate\x7d\x7d".data "\x7b\x7bpython:date\x7d\x7d".data) <|
    reSub (tryLit "\x7b\x7btime\x7d\x7d".data "\x7b\x7bpython:time\x7d\x7d".data) <|
    reSub (tryLit "\x7b\x7buser\x7d\x7d".data "\x7b\x7bpython:user\x7d\x7d".data) <|
    reSub (tryLit "\x7b\x7bchar\x7d\x7d".data "\x7b\x7bpython:char\x7d\x7d".data) s.data

/-- What C4's innermost-first reading would produce on the nested template
`\x7b\x7bsetvar::x::\x7b\x7bgetvar::y\x7d\x7d\x7d\x7d`: the inner call
rewritten as a unit, then the outer call wrapped around it with its bracket
pair matched at the outermost `\x7d\x7d`.  Stated from the claim's words, for
comparison with the source function. -/
def claimInnermostFirstResult : String :=
  "\x7b\x7bpython:setvar(\"x\", \"\x7b\x7bpython:getvar(\"y\")\x7d\x7d\")\x7d\x7d"

theorem scanSub_no_open (try1 : List Char → Option (List Char × List Char))
    (h : ∀ cs : List Char, '{' ∉ cs → try1 cs = none) :
    ∀ (n : Nat) (cs : List Char), '{' ∉ cs → scanSub try1 n cs = cs := by
  intro n
  induction n with
  | zero => intro cs _; rfl
  | succ n ih =>
    intro cs hcs
    cases cs with
    | nil => rfl
    | cons c rest =>
      have hr : '{' ∉ rest := fun hm => hcs (List.mem_cons_of_mem _ hm)
      simp only [scanSub, h (c :: rest) hcs, ih rest hr]

theorem not_isPrefixOf_of_no_open (t cs : List Char) (h : '{' ∉ cs) :
    ('{' :: t).isPrefixOf cs = false := by
  cases cs with
  | nil => rfl
  | cons c r =>
    have hc : c ≠ '{' := fun e => h (e ▸ List.mem_cons_self c r)
    have h2 : ('{' == c) = false := beq_eq_false_iff_ne.mpr (Ne.symm hc)
    simp [List.isPrefixOf, h2]

theorem tryLit_no_open (t rep cs : List Char) (h : '{' ∉ cs) :
    tryLit ('{' :: t) rep cs = none := by
  unfold tryLit
  simp [not_isPrefixOf_of_no_open t cs h]

theorem trySetvar_no_open (cs : List Char) (h : '{' ∉ cs) :
    trySetvar cs = none := by
  unfold trySetvar
  have e : "\x7b\x7bsetvar::".data = '{' :: "\x7bsetvar::".data := rfl
  rw [e, not_isPrefixOf_of_no_open _ cs h]
  simp

theorem tryGetvar_no_open (cs : List Char) (h : '{' ∉ cs) :
    tryGetvar cs = none := by
  unfold tryGetvar
  have e : "\x7b\x7bgetvar::".data = '{' :: "\x7bgetvar::".data := rfl
  rw [e, not_isPrefixOf_of_no_open _ cs h]
  simp

theorem trySetglobalvar_no_open (cs : List Char) (h : '{' ∉ cs) :
    trySetglobalvar cs = none := by
  unfold trySetglobalvar
  have e : "\x7b\x7bsetglobalvar::".data = '{' :: "\x7bsetglobalvar::".data := rfl
  rw [e, not_isPrefixOf_of_no_open _ cs h]
  simp

theorem tryGetglobalvar_no_open (cs : List Char) (h : '{' ∉ cs) :
    tryGetglobalvar cs = none := by
  unfold tryGetglobalvar
  have e : "\x7b\x7bgetglobalvar::".data = '{' :: "\x7bgetglobalvar::".data := rfl
  rw [e, not_isPrefixOf_of_no_open _ cs h]
  simp

theorem convert_no_open (s : String) (h : '{' ∉ s.data) :
    convert_tavern_macros_to_python s = s := by
  unfold convert_tavern_macros_to_python reSub
  rw [scanSub_no_open _ (fun cs hcs => by
        have e : "\x7b\x7bchar\x7d\x7d".data = '{' :: "\x7bchar\x7d\x7d".data := rfl
        rw [e]; exact tryLit_no_open _ _ cs hcs) _ _ h]
  rw [scanSub_no_open _ (fun cs hcs => by
        have e : "\x7b\x7buser\x7d\x7d".data = '{' :: "\x7buser\x7d\x7d".data := rfl
        rw [e]; exact tryLit_no_open _ _ cs hcs) _ _ h]
  rw [scanSub_no_open _ (fun cs hcs => by
        have e : "\x7b\x7btime\x7d\x7d".data = '{' :: "\x7btime\x7d\x7d".data := rfl
        rw [e]; exact tryLit_no_open _ _ cs hcs) _ _ h]
  rw [scanSub_no_open _ (fun cs hcs => by
        have e : "\x7b\x7bdate\x7d\x7d".data = '{' :: "\x7bdate\x7d\x7d".data := rfl
        rw [e]; exact tryLit_no_open _ _ cs hcs) _ _ h]
  rw [scanSub_no_open _ (fun cs hcs => trySetvar_no_open cs hcs) _ _ h]
  rw [scanSub_no_open _ (fun cs hcs => tryGetvar_no_open cs hcs) _ _ h]
  rw [scanSub_no_open _ (fun cs hcs => trySetglobalvar_no_open cs hcs) _ _ h]
  rw [scanSub_no_open _ (fun cs hcs => tryGetglobalvar_no_open cs hcs) _ _ h]

/-- C4. Counterexample: the translator is the sequence of `re.sub` passes of
`convert_tavern_macros_to_python`, not a depth-counting scanner.  On the
nested template `\x7b\x7bsetvar::x::\x7b\x7bgetvar::y\x7d\x7d\x7d\x7d` the
non-nesting `setvar` pattern pairs the outer call's opening brackets with the
*inner* call's closing pair, producing a mis-paired rewrite instead of the
innermost-first result; and the unbalanced template
`\x7b\x7bsetvar::x::1\x7d` is returned unchanged — no `ParseError` is
raised (the function has no failure path at all). -/
theorem c4_translator_counterexample :
    convert_tavern_macros_to_python
        "\x7b\x7bsetvar::x::\x7b\x7bgetvar::y\x7d\x7d\x7d\x7d"
      = "\x7b\x7bpython:setvar(\"x\", \"\x7b\x7bpython:getvar(\"y\")\")\x7d\x7d\x7d\x7d" ∧
    convert_tavern_macros_to_python
        "\x7b\x7bsetvar::x::\x7b\x7bgetvar::y\x7d\x7d\x7d\x7d"
      ≠ claimInnermostFirstResult ∧
    convert_tavern_macros_to_python "\x7b\x7bsetvar::x::1\x7d"
      = "\x7b\x7bsetvar::x::1\x7d" := by
  refine ⟨by decide, by decide, by decide⟩

/-- C4 (amended). The translator applies a fixed, ordered set of non-nesting
regex substitutions, scanning each pattern left to right.  Flat (non-nested)
legacy calls are rewritten into the evaluator's native call form preserving
argument order and quoting; text containing no opening bracket is passed
through unchanged; nested calls are mis-paired at the first closing bracket
pair rather than resolved innermost-first, and malformed or unbalanced
bracket sequences are silently passed through unchanged — there is no
`ParseError`. -/
theorem c4_translator_amended :
    (∀ s : String, '{' ∉ s.data → convert_tavern_macros_to_python s = s) ∧
    convert_tavern_macros_to_python "\x7b\x7bsetvar::hp::100\x7d\x7d"
      = "\x7b\x7bpython:setvar(\"hp\", \"100\")\x7d\x7d" ∧
    convert_tavern_macros_to_python "\x7b\x7bgetvar::hp\x7d\x7d"
      = "\x7b\x7bpython:getvar(\"hp\")\x7d\x7d" ∧
    convert_tavern_macros_to_python "\x7b\x7bchar\x7d\x7d"
      = "\x7b\x7bpython:char\x7d\x7d" ∧
    convert_tavern_macros_to_python "\x7b\x7bsetglobalvar::g::7\x7d\x7d"
      = "\x7b\x7bpython:setglobalvar(\"g\", \"7\")\x7d\x7d" ∧
    convert_tavern_macros_to_python "\x7b\x7bgetglobalvar::g\x7d\x7d"
      = "\x7b\x7bpython:getglobalvar(\"g\")\x7d\x7d" ∧
    convert_tavern_macros_to_python "\x7b\x7bsetvar::x::1\x7d"
      = "\x7b\x7bsetvar::x::1\x7d" := by
  exact ⟨convert_no_open, by decide, by decide, by decide, by decide, by decide, by decide⟩

/-- C4 amended, witness: the pass-through clause applied at `"hello"`. -/
theorem c4_translator_amended_witness :
    convert_tavern_macros_to_python "hello" = "hello" :=
  c4_translator_amended.1 "hello" (by decide)

/-! ## Collector / assembler ordering

docs/FILE_FORMATS.md, 次序规则 (ordering rules for in-chat entries):
1. larger `depth` places the entry later (closer to the newest message);
2. at equal depth, smaller `order` places it earlier;
3. at equal depth and order, role priority assistant → user → system;
4. otherwise the original in-file order. -/

/-- Message roles. -/
inductive MessageRole where
  | system | user | assistant
  deriving DecidableEq, Repr

/-- Role priority for the in-chat ordering: assistant highest (earliest),
then user, then system. -/
def rolePriority : MessageRole → Nat
  | .assistant => 0
  | .user => 1
  | .system => 2

/-- An in-chat (positional) fragment as the orderer sees it: its depth, its
`insertion_order`/`injection_order` value, its role, and its position in the
original file. -/
structure InChatFragment where
  depth : Nat
  order : Nat
  role : MessageRole
  declIdx : Nat
  deriving DecidableEq, Repr

/-- Lexicographic `≤` on sort-key quadruples. -/
def keyLe (a b : Nat × Nat × Nat × Nat) : Prop :=
  a.1 < b.1 ∨ (a.1 = b.1 ∧ (a.2.1 < b.2.1 ∨ (a.2.1 = b.2.1 ∧
    (a.2.2.1 < b.2.2.1 ∨ (a.2.2.1 = b.2.2.1 ∧ a.2.2.2 ≤ b.2.2.2)))))

instance : DecidableRel keyLe := fun a b => by
  unfold keyLe; exact inferInstance

/-- The documented in-chat sort key: depth first, then order, then role
priority, then original declaration position. -/
def fragKey (f : InChatFragment) : Nat × Nat × Nat × Nat :=
  (f.depth, f.order, rolePriority f.role, f.declIdx)

/-- The documented in-chat ordering relation. -/
def fragLe (f g : InChatFragment) : Prop := keyLe (fragKey f) (fragKey g)

instance : DecidableRel fragLe := fun f g => by
  unfold fragLe; exact inferInstance

instance : IsTotal InChatFragment fragLe := by
  constructor
  intro f g
  unfold fragLe keyLe
  omega

instance : IsTrans InChatFragment fragLe := by
  constructor
  intro f g h
  unfold fragLe keyLe
  omega

/-- The orderer: a stable sort of the in-chat fragments by the documented
key (insertion sort, ties resolved by the key's final declaration-index
component). -/
def sortInChat (l : List InChatFragment) : List InChatFragment :=
  List.insertionSort fragLe l

/-- The sort key C5 asserts, stated from the claim's words: `order_key`
ascending as the primary key, ties broken by depth, then role priority, then
declaration order.  For comparison with the documented key. -/
def claimFragKey (f : InChatFragment) : Nat × Nat × Nat × Nat :=
  (f.order, f.depth, rolePriority f.role, f.declIdx)

/-- The ordering relation C5 asserts. -/
def claimFragLe (f g : InChatFragment) : Prop :=
  keyLe (claimFragKey f) (claimFragKey g)

instance : DecidableRel claimFragLe := fun f g => by
  unfold claimFragLe; exact inferInstance

/-- Sorting as C5 describes it. -/
def claimSortInChat (l : List InChatFragment) : List InChatFragment :=
  List.insertionSort claimFragLe l

/-- C5. Counterexample: for positional (in-chat) fragments the documented
primary key is depth, not `order_key`.  With `f1 = (depth 2, order 100)` and
`f2 = (depth 1, order 200)` the engine places `f2` first (smaller depth),
while the claim's order-primary key would place `f1` first. -/
theorem c5_order_counterexample :
    sortInChat [⟨2, 100, .system, 0⟩, ⟨1, 200, .system, 1⟩]
      = [⟨1, 200, .system, 1⟩, ⟨2, 100, .system, 0⟩] ∧
    claimSortInChat [⟨2, 100, .system, 0⟩, ⟨1, 200, .system, 1⟩]
      = [⟨2, 100, .system, 0⟩, ⟨1, 200, .system, 1⟩] ∧
    sortInChat [⟨2, 100, .system, 0⟩, ⟨1, 200, .system, 1⟩]
      ≠ claimSortInChat [⟨2, 100, .system, 0⟩, ⟨1, 200, .system, 1⟩] := by
  refine ⟨by decide, by decide, by decide⟩

/-- C5 (amended). The orderer sorts every in-chat fragment list by the
lexicographic key (depth ascending, then `order_key` ascending, then role
priority assistant > user > system, then original declaration order): the
result is sorted under that key and is a permutation of the input, and the
final declaration-index component makes the order total, so equal-key ties
cannot reorder.  At equal depth and order, an assistant fragment is placed
before a user fragment, which is placed before a system fragment. -/
theorem c5_order_amended :
    (∀ l : List InChatFragment, List.Sorted fragLe (sortInChat l)) ∧
    (∀ l : List InChatFragment, List.Perm (sortInChat l) l) ∧
    sortInChat [⟨3, 50, .system, 0⟩, ⟨3, 50, .user, 1⟩, ⟨3, 50, .assistant, 2⟩]
      = [⟨3, 50, .assistant, 2⟩, ⟨3, 50, .user, 1⟩, ⟨3, 50, .system, 0⟩] := by
  refine ⟨fun l => List.sorted_insertionSort fragLe l,
    fun l => List.perm_insertionSort fragLe l, by decide⟩

/-! ## Unified execution order

The engine's unified execution order (API documentation, 统一执行顺序):
entries are sorted by `injection_order` and then processed one at a time,
top to bottom, in a single pass — per entry: evaluate `enabled` against the
current variable state; if true, execute its `code_block`, then expand its
`content`, then move to the next entry.  Scope variable dictionaries are the
ones of `_create_execution_context`: every accessor is
`vars.get(name, '')`, so an unset name reads as the empty string. -/

/-- One scope's variable dictionary. -/
abbrev Store := List (String × String)

/-- `vars.get(name, '')`: read a variable, defaulting to `""` when unset. -/
def getv (s : Store) (n : String) : String :=
  match s.find? (fun p => p.1 == n) with
  | some p => p.2
  | none => ""

/-- `vars.update(\x7bname: value\x7d)`: write a variable. -/
def setv (s : Store) (n v : String) : Store := (n, v) :: s

/-- One candidate entry of the unified pass: its `injection_order`, its
`enabled` predicate, its `code_block` (a state transformer run for side
effects), and its `content` expansion (producing the expanded text and any
variable writes made by embedded macros). -/
structure Entry where
  order : Nat
  enabled : Store → Bool
  code : Store → Store
  content : Store → String × Store

/-- The observable steps of the pass, tagged with the entry's position in
the sorted list. -/
inductive BuildEv where
  | activation (i : Nat)
  | codeExec (i : Nat)
  | expand (i : Nat)
  deriving DecidableEq, Repr

/-- The entry position an event belongs to. -/
def evIdx : BuildEv → Nat
  | .activation i => i
  | .codeExec i => i
  | .expand i => i

/-- The step's rank inside its entry: activation, then code, then content. -/
def evRank : BuildEv → Nat
  | .activation _ => 0
  | .codeExec _ => 1
  | .expand _ => 2

/-- `a` happens strictly before `b`: an earlier entry, or an earlier step of
the same entry. -/
def evBefore (a b : BuildEv) : Prop :=
  evIdx a < evIdx b ∨ (evIdx a = evIdx b ∧ evRank a < evRank b)

/-- Result of the single pass. -/
structure BuildOut where
  msgs : List String
  store : Store
  events : List BuildEv

/-- The unified single pass, started at entry position `i`: per entry,
activation resolution, then (when enabled) code-block execution, then
content expansion, then the next entry. -/
def processFrom (i : Nat) (st : Store) : List Entry → BuildOut
  | [] => ⟨[], st, []⟩
  | e :: rest =>
    if e.enabled st then
      let st1 := e.code st
      let pc := e.content st1
      let out := processFrom (i + 1) pc.2 rest
      ⟨pc.1 :: out.msgs, out.store,
        .activation i :: .codeExec i :: .expand i :: out.events⟩
    else
      let out := processFrom (i + 1) st rest
      ⟨out.msgs, out.store, .activation i :: out.events⟩

/-- A whole build: sort by `injection_order`, then run the single pass. -/
def runBuild (entries : List Entry) (st : Store) : BuildOut :=
  processFrom 0 st (List.insertionSort (fun a b => a.order ≤ b.order) entries)

theorem processFrom_evIdx_ge :
    ∀ (l : List Entry) (i : Nat) (st : Store),
      ∀ e ∈ (processFrom i st l).events, i ≤ evIdx e := by
  intro l
  induction l with
  | nil => intro i st e he; simp [processFrom] at he
  | cons a rest ih =>
    intro i st e he
    simp only [processFrom] at he
    by_cases h : a.enabled st
    · rw [if_pos h] at he
      simp only [List.mem_cons] at he
      rcases he with rfl | rfl | rfl | he
      · simp [evIdx]
      · simp [evIdx]
      · simp [evIdx]
      · exact le_trans (Nat.le_succ i) (ih (i + 1) _ e he)
    · rw [if_neg h] at he
      simp only [List.mem_cons] at he
      rcases he with rfl | he
      · simp [evIdx]
      · exact le_trans (Nat.le_succ i) (ih (i + 1) _ e he)

theorem processFrom_pairwise :
    ∀ (l : List Entry) (i : Nat) (st : Store),
      List.Pairwise evBefore (processFrom i st l).events := by
  intro l
  induction l with
  | nil => intro i st; simp [processFrom]
  | cons a rest ih =>
    intro i st
    simp only [processFrom]
    by_cases h : a.enabled st
    · rw [if_pos h]
      have hge := processFrom_evIdx_ge rest (i + 1) (a.content (a.code st)).2
      refine List.Pairwise.cons ?_ (List.Pairwise.cons ?_ (List.Pairwise.cons ?_ (ih _ _)))
      · intro b hb
        simp only [List.mem_cons] at hb
        rcases hb with rfl | rfl | hb
        · right; exact ⟨rfl, by simp [evRank]⟩
        · right; exact ⟨rfl, by simp [evRank]⟩
        · left; have := hge b hb; simp [evIdx] at this ⊢; omega
      · intro b hb
        simp only [List.mem_cons] at hb
        rcases hb with rfl | hb
        · right; exact ⟨rfl, by simp [evRank]⟩
        · left; have := hge b hb; simp [evIdx] at this ⊢; omega
      · intro b hb
        left
        have := hge b hb
        simp [evIdx] at this ⊢
        omega
    · rw [if_neg h]
      have hge := processFrom_evIdx_ge rest (i + 1) st
      refine List.Pairwise.cons ?_ (ih _ _)
      intro b hb
      left
      have := hge b hb
      simp [evIdx] at this ⊢
      omega

/-- C3. Fragment processing is strictly sequential and per-fragment atomic:
in the event trace of every build, any two events are ordered by `evBefore` —
every step of fragment `N` (activation, then code execution, then content
expansion) happens strictly before every step of fragment `N + 1`, and no
two fragments' steps interleave. -/
theorem c3_sequential_atomic (entries : List Entry) (st : Store) :
    List.Pairwise evBefore (runBuild entries st).events :=
  processFrom_pairwise _ 0 st

/-- The empty variable state at the start of a build. -/
def emptyStore : Store := []

/-- An always-enabled entry whose `code_block` sets variable `X` to `"5"`
(the spec's fragment A). -/
def entrySetX (o : Nat) : Entry :=
  ⟨o, fun _ => true, fun st => setv st "X" "5", fun st => ("", st)⟩

/-- An always-enabled entry whose content reads variable `X`
(the spec's fragment B). -/
def entryReadX (o : Nat) : Entry :=
  ⟨o, fun _ => true, fun st => st, fun st => (getv st "X", st)⟩

/-- C8. Reading a variable that no earlier-processed entry has written
observes the accessor's default `""` (a falsy value) rather than an error:
`getv` is total and returns `""` whenever the name is absent.  In the
forward-dependency scenario, when the writer has the lower order key the
reader observes the write (`"5"`); after swapping the two order keys the
reader runs first and observes the unset default `""`. -/
theorem c8_unset_default_forward_dependency :
    (∀ (s : Store) (n : String), (∀ p ∈ s, p.1 ≠ n) → getv s n = "") ∧
    (runBuild [entrySetX 100, entryReadX 200] emptyStore).msgs = ["", "5"] ∧
    (runBuild [entrySetX 200, entryReadX 100] emptyStore).msgs = ["", ""] := by
  refine ⟨?_, by decide, by decide⟩
  intro s n h
  unfold getv
  cases hf : s.find? (fun p => p.1 == n) with
  | none => rfl
  | some p =>
    have hmem := List.mem_of_find?_eq_some hf
    have hp := List.find?_some hf
    exact absurd (by simpa using hp) (h p hmem)

/-- C8, witness: a store holding only `Y` reads `X` as the empty default. -/
theorem c8_unset_default_witness : getv [("Y", "1")] "X" = "" :=
  c8_unset_default_forward_dependency.1 [("Y", "1")] "X" (by decide)

/-! ## Python macro expansion and its error handling

`process_python_macros` runs
`re.sub(r'\\\x7b\\\x7bpython:(.*?)\\\x7d\\\x7d', execute_python_macro, content,
flags=re.DOTALL)`: each embedded snippet is executed and replaced by
`str(result.result)` on success, or by the inline diagnostic
`f"[错误: \x7bresult.error\x7d]"` on failure — the surrounding content is
unaffected and scanning continues.  `execute_all_code_blocks_sequential`
likewise records each block's success or error and goes on to the next
block. -/

/-- The sandbox's `ExecutionResult`: success with a (stringified) value, or
failure with an error message. -/
inductive ExecutionResult where
  | ok (v : String)
  | err (e : String)

/-- How `execute_python_macro` renders a result into the content. -/
def renderResult : ExecutionResult → String
  | .ok v => v
  | .err e => "[错误: " ++ e ++ "]"

/-- Locate the first `\x7d\x7d` (the non-greedy `(.*?)\x7d\x7d` tail of the
python-macro pattern): returns the text before it and the rest after it. -/
def findCloseBr : List Char → Option (List Char × List Char)
  | [] => none
  | c :: rest =>
    if c = '}' ∧ rest.head? = some '}' then some ([], rest.tail)
    else (findCloseBr rest).map fun p => (c :: p.1, p.2)

/-- The list contains a `\x7d\x7d` pair. -/
def hasCloseBr : List Char → Bool
  | [] => false
  | c :: rest => (decide (c = '}') && (rest.head? == some '}')) || hasCloseBr rest

/-- The python-macro pattern `\\\x7b\\\x7bpython:(.*?)\\\x7d\\\x7d` as a
`re.sub` matcher: on a match, the snippet between the brackets is executed
by `ev` and the rendered result replaces the whole span. -/
def tryPython (ev : String → ExecutionResult) (cs : List Char) :
    Option (List Char × List Char) :=
  if ("\x7b\x7bpython:".data).isPrefixOf cs then
    (findCloseBr (cs.drop 9)).map fun p =>
      ((renderResult (ev (String.mk p.1))).data, p.2)
  else none

/-- `process_python_macros`: one `re.sub` pass with the python pattern. -/
def process_python_macros (ev : String → ExecutionResult) (s : String) : String :=
  String.mk (reSub (tryPython ev) s.data)

/-- `execute_all_code_blocks_sequential`, reduced to its loop: every block
is executed and its `(success, result-or-error)` record appended, failures
included. -/
def execBlocks (ev : String → ExecutionResult) (blocks : List String) :
    List (Bool × String) :=
  blocks.map fun b =>
    match ev b with
    | .ok v => (true, v)
    | .err e => (false, e)

theorem not_isPrefixOf_of_head_ne (t r : List Char) (c : Char) (h : c ≠ '{') :
    ('{' :: t).isPrefixOf (c :: r) = false := by
  have h2 : ('{' == c) = false := beq_eq_false_iff_ne.mpr (Ne.symm h)
  simp [List.isPrefixOf, h2]

theorem tryPython_head_ne (ev : String → ExecutionResult) (c : Char)
    (r : List Char) (h : c ≠ '{') : tryPython ev (c :: r) = none := by
  unfold tryPython
  have e : "\x7b\x7bpython:".data = '{' :: "\x7bpython:".data := rfl
  rw [e, not_isPrefixOf_of_head_ne _ _ _ h]
  simp

theorem scanSub_append_text (try1 : List Char → Option (List Char × List Char))
    (h : ∀ (c : Char) (r : List Char), c ≠ '{' → try1 (c :: r) = none) :
    ∀ (t : List Char) (n : Nat) (cs : List Char), '{' ∉ t →
      scanSub try1 (t.length + n) (t ++ cs) = t ++ scanSub try1 n cs := by
  intro t
  induction t with
  | nil => intro n cs _; simp
  | cons c t' ih =>
    intro n cs ht
    have hc : c ≠ '{' := fun e => ht (e ▸ List.mem_cons_self c t')
    have ht' : '{' ∉ t' := fun hm => ht (List.mem_cons_of_mem _ hm)
    have harith : (c :: t').length + n = (t'.length + n) + 1 := by
      simp [Nat.add_comm, Nat.add_assoc, Nat.add_left_comm]
    rw [harith, List.cons_append]
    simp only [scanSub, h c _ hc]
    rw [ih n cs ht', List.cons_append]

theorem findCloseBr_append (cs : List Char) :
    ∀ (body : List Char), hasCloseBr body = false → body.getLast? ≠ some '}' →
      findCloseBr (body ++ '}' :: '}' :: cs) = some (body, cs) := by
  intro body
  induction body with
  | nil =>
    intro _ _
    simp [findCloseBr]
  | cons b body' ih =>
    intro h1 h2
    cases body' with
    | nil =>
      have hb : b ≠ '}' := by
        intro e
        exact h2 (by simp [e])
      rw [show (b :: []) ++ '}' :: '}' :: cs = b :: '}' :: '}' :: cs from rfl]
      rw [findCloseBr]
      rw [if_neg (fun hand => hb hand.1)]
      rw [findCloseBr]
      rw [if_pos ⟨rfl, rfl⟩]
      rfl
    | cons b' body'' =>
      have hnot : ¬(b = '}' ∧ b' = '}') := by
        intro ⟨e1, e2⟩
        rw [hasCloseBr] at h1
        simp [e1, e2] at h1
      have h1' : hasCloseBr (b' :: body'') = false := by
        rw [hasCloseBr] at h1
        exact (Bool.or_eq_false_iff.mp h1).2
      have h2' : (b' :: body'').getLast? ≠ some '}' := by
        intro e
        apply h2
        rw [List.getLast?_cons_cons]
        exact e
      rw [show (b :: b' :: body'') ++ '}' :: '}' :: cs
        = b :: ((b' :: body'') ++ '}' :: '}' :: cs) from rfl]
      rw [findCloseBr]
      rw [if_neg (by
        intro hand
        refine hnot ⟨hand.1, ?_⟩
        have : ((b' :: body'') ++ '}' :: '}' :: cs).head? = some b' := rfl
        rw [this] at hand
        simpa using hand.2)]
      rw [ih h1' h2']
      rfl

theorem findCloseBr_some_length :
    ∀ (xs b r : List Char), findCloseBr xs = some (b, r) → r.length < xs.length := by
  intro xs
  induction xs with
  | nil => intro b r h; simp [findCloseBr] at h
  | cons c rest ih =>
    intro b r h
    rw [findCloseBr] at h
    by_cases hc : c = '}' ∧ rest.head? = some '}'
    · rw [if_pos hc] at h
      simp only [Option.some.injEq, Prod.mk.injEq] at h
      obtain ⟨-, hr⟩ := h
      subst hr
      have htl : rest.tail.length ≤ rest.length := by
        cases rest with
        | nil => exact le_rfl
        | cons x xs => exact Nat.le_succ _
      simp only [List.length_cons]
      omega
    · rw [if_neg hc] at h
      cases hf : findCloseBr rest with
      | none => rw [hf] at h; simp at h
      | some p =>
        rw [hf] at h
        simp only [Option.map, Option.some.injEq, Prod.mk.injEq] at h
        obtain ⟨-, hr⟩ := h
        subst hr
        have := ih p.1 p.2 (by rw [hf])
        simp only [List.length_cons]
        omega

theorem tryPython_some_length (ev : String → ExecutionResult)
    (cs rep r : List Char) (h : tryPython ev cs = some (rep, r)) :
    r.length < cs.length := by
  unfold tryPython at h
  by_cases hp : ("\x7b\x7bpython:".data).isPrefixOf cs
  · rw [if_pos hp] at h
    cases hf : findCloseBr (cs.drop 9) with
    | none => rw [hf] at h; simp at h
    | some p =>
      rw [hf] at h
      simp only [Option.map, Option.some.injEq, Prod.mk.injEq] at h
      obtain ⟨-, hr⟩ := h
      subst hr
      have hlt := findCloseBr_some_length (cs.drop 9) p.1 p.2 (by rw [hf])
      have hdrop : (cs.drop 9).length = cs.length - 9 := List.length_drop 9 cs
      have hcs : 9 ≤ cs.length := by
        have := List.IsPrefix.length_le (List.isPrefixOf_iff_prefix.mp hp)
        simpa using this
      omega
  · rw [if_neg hp] at h
    simp at h

theorem scanSub_fuel_irrel (ev : String → ExecutionResult) :
    ∀ (k : Nat) (cs : List Char) (n : Nat), cs.length ≤ k → cs.length ≤ n →
      scanSub (tryPython ev) n cs = reSub (tryPython ev) cs := by
  intro k
  induction k with
  | zero =>
    intro cs n hk _
    have : cs = [] := List.eq_nil_of_length_eq_zero (Nat.le_zero.mp hk)
    subst this
    cases n <;> rfl
  | succ k ih =>
    intro cs n hk hn
    cases cs with
    | nil => cases n <;> rfl
    | cons c rest =>
      obtain ⟨n', rfl⟩ : ∃ n', n = n' + 1 := by
        cases n
        · simp at hn
        · exact ⟨_, rfl⟩
      unfold reSub
      simp only [List.length_cons, scanSub]
      cases htry : tryPython ev (c :: rest) with
      | none =>
        have h1 : scanSub (tryPython ev) n' rest = reSub (tryPython ev) rest := by
          apply ih rest n'
          · simp only [List.length_cons] at hk; omega
          · simp only [List.length_cons] at hn; omega
        have h2 : scanSub (tryPython ev) rest.length rest = reSub (tryPython ev) rest := by
          exact ih rest rest.length (by simp only [List.length_cons] at hk; omega) le_rfl
        show c :: scanSub (tryPython ev) n' rest = c :: scanSub (tryPython ev) rest.length rest
        rw [h1, h2]
      | some p =>
        obtain ⟨rep, r⟩ := p
        have hlt := tryPython_some_length ev (c :: rest) rep r htry
        have h1 : scanSub (tryPython ev) n' r = reSub (tryPython ev) r := by
          apply ih r n'
          · simp only [List.length_cons] at hk hlt; omega
          · simp only [List.length_cons] at hn hlt; omega
        have h2 : scanSub (tryPython ev) rest.length r = reSub (tryPython ev) r := by
          apply ih r rest.length
          · simp only [List.length_cons] at hk hlt; omega
          · simp only [List.length_cons] at hlt; omega
        show rep ++ scanSub (tryPython ev) n' r = rep ++ scanSub (tryPython ev) rest.length r
        rw [h1, h2]

/-- C7. Errors are contained to the failing span: when an embedded snippet
fails (`ev body = err e`), `process_python_macros` replaces exactly that
span with the inline diagnostic `[错误: e]`; the text before it is emitted
verbatim, the rest of the content is still processed (the fragment is not
dropped and the pass, being a total function, never aborts).  Likewise the
sequential code-block executor records the failure and continues with the
remaining blocks. -/
theorem c7_error_containment :
    (∀ (ev : String → ExecutionResult) (t body cs : List Char) (e : String),
      '{' ∉ t → hasCloseBr body = false → body.getLast? ≠ some '}' →
      ev (String.mk body) = .err e →
      process_python_macros ev
          (String.mk (t ++ "\x7b\x7bpython:".data ++ body ++ '}' :: '}' :: cs))
        = String.mk (t ++ ("[错误: " ++ e ++ "]").data
            ++ (process_python_macros ev (String.mk cs)).data)) ∧
    (∀ (ev : String → ExecutionResult) (pre : List String) (b : String)
        (post : List String) (e : String), ev b = .err e →
      execBlocks ev (pre ++ b :: post)
        = execBlocks ev pre ++ (false, e) :: execBlocks ev post) := by
  constructor
  · intro ev t body cs e ht hb1 hb2 herr
    have hshape : '{' :: ("\x7bpython:".data ++ (body ++ '}' :: '}' :: cs))
        = "\x7b\x7bpython:".data ++ (body ++ '}' :: '}' :: cs) := rfl
    have htry : tryPython ev ('{' :: ("\x7bpython:".data ++ (body ++ '}' :: '}' :: cs)))
        = some (("[错误: " ++ e ++ "]").data, cs) := by
      unfold tryPython
      rw [if_pos (by
        rw [hshape]
        exact List.isPrefixOf_iff_prefix.mpr (List.prefix_append _ _))]
      have hdrop : ('{' :: ("\x7bpython:".data ++ (body ++ '}' :: '}' :: cs))).drop 9
          = body ++ '}' :: '}' :: cs := by
        rw [hshape]
        rw [show (9 : Nat) = ("\x7b\x7bpython:".data).length from rfl]
        exact List.drop_left _ _
      rw [hdrop, findCloseBr_append cs body hb1 hb2]
      simp [renderResult, herr]
    unfold process_python_macros
    congr 1
    show reSub (tryPython ev) (t ++ "\x7b\x7bpython:".data ++ body ++ '}' :: '}' :: cs)
      = t ++ ("[错误: " ++ e ++ "]").data ++ reSub (tryPython ev) cs
    unfold reSub
    rw [show t ++ "\x7b\x7bpython:".data ++ body ++ '}' :: '}' :: cs
      = t ++ ("\x7b\x7bpython:".data ++ (body ++ '}' :: '}' :: cs)) from by
        simp [List.append_assoc]]
    rw [show (t ++ ("\x7b\x7bpython:".data ++ (body ++ '}' :: '}' :: cs))).length
      = t.length + ("\x7b\x7bpython:".data ++ (body ++ '}' :: '}' :: cs)).length from by
        simp]
    rw [scanSub_append_text (tryPython ev) (fun c r hc => tryPython_head_ne ev c r hc)
      t _ _ ht]
    rw [List.append_assoc]
    congr 1
    rw [show "\x7b\x7bpython:".data ++ (body ++ '}' :: '}' :: cs)
      = '{' :: ("\x7bpython:".data ++ (body ++ '}' :: '}' :: cs)) from rfl]
    rw [List.length_cons]
    simp only [scanSub]
    rw [htry]
    show ("[错误: " ++ e ++ "]").data
        ++ scanSub (tryPython ev) ("\x7bpython:".data ++ (body ++ '}' :: '}' :: cs)).length cs
      = ("[错误: " ++ e ++ "]").data ++ reSub (tryPython ev) cs
    congr 1
    apply scanSub_fuel_irrel ev cs.length cs _ le_rfl
    have h8 : ("\x7bpython:".data).length = 8 := rfl
    simp only [List.length_append, List.length_cons, h8]
    omega
  · intro ev pre b post e herr
    simp [execBlocks, herr]

/-- C7, witness: a failing snippet inside surrounding text, with more
content after it. -/
theorem c7_error_containment_witness :
    process_python_macros (fun _ => .err "E")
        (String.mk ("A ".data ++ "\x7b\x7bpython:".data ++ "1/0".data
          ++ '}' :: '}' :: "B".data))
      = String.mk ("A ".data ++ ("[错误: " ++ "E" ++ "]").data
          ++ (process_python_macros (fun _ => .err "E") (String.mk "B".data)).data) :=
  c7_error_containment.1 (fun _ => .err "E") "A ".data "1/0".data "B".data "E"
    (by decide) (by decide) (by decide) rfl

/-! ## Prompt assembler: role merge and the clean tier

docs/FILE_FORMATS.md, 多内容部分架构 and 执行时机和顺序: a `ChatMessage`
holds a role and a list of `ContentPart`s, each part keeping its provenance
(`source_type`, `source_id`, `source_name`).  Step 4 merges adjacent
messages of the same role by concatenating their `content_parts` lists
(text is not joined yet); only at final output time are a message's parts
joined with `"\n\n"`, and `to_clean_openai_format` keeps only
`role`/`content`, dropping all provenance fields. -/

/-- A content part with its provenance markers. -/
structure ContentPart where
  content : String
  source_type : String
  source_id : String
  source_name : String
  deriving DecidableEq, Repr

/-- An assembled message: a role and its ordered content parts. -/
structure ChatMessage where
  role : MessageRole
  content_parts : List ContentPart
  deriving DecidableEq, Repr

/-- A clean-tier message: only `role` and `content` survive. -/
structure CleanMsg where
  role : MessageRole
  content : String
  deriving DecidableEq, Repr

/-- Role merge (step 4), with fuel equal to the list length (every step
shortens the list by one, so the fuel never runs out): adjacent messages of
the same role are collapsed into one message whose `content_parts` is the
concatenation of theirs. -/
def mergeAdjacentF : Nat → List ChatMessage → List ChatMessage
  | 0, l => l
  | _ + 1, [] => []
  | _ + 1, [m] => [m]
  | n + 1, a :: b :: rest =>
    if a.role = b.role then
      mergeAdjacentF n (⟨a.role, a.content_parts ++ b.content_parts⟩ :: rest)
    else a :: mergeAdjacentF n (b :: rest)

/-- Role merge over a message list. -/
def mergeAdjacent (l : List ChatMessage) : List ChatMessage :=
  mergeAdjacentF l.length l

/-- The clean tier: flatten each processed message into a plain
`(role, content)` pair, the content being its parts' texts joined with the
blank-line separator `"\n\n"`; provenance is dropped. -/
def to_clean_openai_format (msgs : List ChatMessage) : List CleanMsg :=
  msgs.map fun m =>
    ⟨m.role, String.intercalate "\n\n" (m.content_parts.map ContentPart.content)⟩

theorem mergeAdjacentF_head_role :
    ∀ (n : Nat) (x : ChatMessage) (rest : List ChatMessage),
      ∃ (y : ChatMessage) (tail : List ChatMessage),
        mergeAdjacentF n (x :: rest) = y :: tail ∧ y.role = x.role := by
  intro n
  induction n with
  | zero => intro x rest; exact ⟨x, rest, rfl, rfl⟩
  | succ n ih =>
    intro x rest
    cases rest with
    | nil => exact ⟨x, [], rfl, rfl⟩
    | cons b rest' =>
      by_cases h : x.role = b.role
      · rw [show mergeAdjacentF (n + 1) (x :: b :: rest')
          = mergeAdjacentF n (⟨x.role, x.content_parts ++ b.content_parts⟩ :: rest')
          from by rw [mergeAdjacentF, if_pos h]]
        exact ih _ rest'
      · rw [show mergeAdjacentF (n + 1) (x :: b :: rest')
          = x :: mergeAdjacentF n (b :: rest')
          from by rw [mergeAdjacentF, if_neg h]]
        exact ⟨x, _, rfl, rfl⟩

theorem mergeAdjacentF_chain :
    ∀ (n : Nat) (l : List ChatMessage), l.length ≤ n →
      List.Chain' (fun a b : ChatMessage => a.role ≠ b.role) (mergeAdjacentF n l) := by
  intro n
  induction n with
  | zero =>
    intro l h
    have : l = [] := List.eq_nil_of_length_eq_zero (Nat.le_zero.mp h)
    subst this
    simp [mergeAdjacentF]
  | succ n ih =>
    intro l h
    cases l with
    | nil => simp [mergeAdjacentF]
    | cons a rest =>
      cases rest with
      | nil => simp [mergeAdjacentF]
      | cons b rest' =>
        by_cases hr : a.role = b.role
        · rw [show mergeAdjacentF (n + 1) (a :: b :: rest')
            = mergeAdjacentF n (⟨a.role, a.content_parts ++ b.content_parts⟩ :: rest')
            from by rw [mergeAdjacentF, if_pos hr]]
          apply ih
          simp only [List.length_cons] at h ⊢
          omega
        · rw [show mergeAdjacentF (n + 1) (a :: b :: rest')
            = a :: mergeAdjacentF n (b :: rest')
            from by rw [mergeAdjacentF, if_neg hr]]
          rw [List.chain'_cons']
          constructor
          · intro y hy
            obtain ⟨y', tail, he, hrole⟩ := mergeAdjacentF_head_role n b rest'
            rw [he] at hy
            simp only [List.head?_cons, Option.mem_def, Option.some.injEq] at hy
            subst hy
            rw [hrole]
            exact hr
          · apply ih
            simp only [List.length_cons] at h ⊢
            omega

theorem mergeAdjacentF_parts :
    ∀ (n : Nat) (l : List ChatMessage), l.length ≤ n →
      ((mergeAdjacentF n l).map ChatMessage.content_parts).flatten
        = (l.map ChatMessage.content_parts).flatten := by
  intro n
  induction n with
  | zero =>
    intro l h
    have : l = [] := List.eq_nil_of_length_eq_zero (Nat.le_zero.mp h)
    subst this
    rfl
  | succ n ih =>
    intro l h
    cases l with
    | nil => rfl
    | cons a rest =>
      cases rest with
      | nil => rfl
      | cons b rest' =>
        by_cases hr : a.role = b.role
        · rw [show mergeAdjacentF (n + 1) (a :: b :: rest')
            = mergeAdjacentF n (⟨a.role, a.content_parts ++ b.content_parts⟩ :: rest')
            from by rw [mergeAdjacentF, if_pos hr]]
          rw [ih _ (by simp only [List.length_cons] at h ⊢; omega)]
          simp [List.append_assoc]
        · rw [show mergeAdjacentF (n + 1) (a :: b :: rest')
            = a :: mergeAdjacentF n (b :: rest')
            from by rw [mergeAdjacentF, if_neg hr]]
          simp only [List.map_cons, List.flatten_cons]
          rw [ih _ (by simp only [List.length_cons] at h ⊢; omega)]
          simp

/-- C9. After placement, adjacent messages sharing a role are merged by
concatenating their `content_parts` lists without joining the text: the
merged list has no two adjacent messages of the same role, and the
concatenation of all parts (order included) is exactly that of the input.
The clean tier then flattens each message into a plain `(role, content)`
pair whose content is the parts' texts joined with the blank-line separator
`"\n\n"`, all provenance stripped: two adjacent activated system fragments
become one system message with two parts, rendered as one clean message
with both texts joined by a blank line. -/
theorem c9_merge_and_clean :
    (∀ l : List ChatMessage,
      List.Chain' (fun a b : ChatMessage => a.role ≠ b.role) (mergeAdjacent l)) ∧
    (∀ l : List ChatMessage,
      ((mergeAdjacent l).map ChatMessage.content_parts).flatten
        = (l.map ChatMessage.content_parts).flatten) ∧
    mergeAdjacent
        [⟨.system, [⟨"Part one", "preset", "id1", "n1"⟩]⟩,
         ⟨.system, [⟨"Part two", "world", "id2", "n2"⟩]⟩]
      = [⟨.system, [⟨"Part one", "preset", "id1", "n1"⟩,
                    ⟨"Part two", "world", "id2", "n2"⟩]⟩] ∧
    to_clean_openai_format
        [⟨.system, [⟨"Part one", "preset", "id1", "n1"⟩,
                    ⟨"Part two", "world", "id2", "n2"⟩]⟩]
      = [⟨.system, "Part one\n\nPart two"⟩] := by
  refine ⟨fun l => mergeAdjacentF_chain l.length l le_rfl,
    fun l => mergeAdjacentF_parts l.length l le_rfl, by decide, by decide⟩

/-! ## Regex view pipeline

docs/REGEX_SYSTEM_ANALYSIS.md (视图系统) and the regex-rule document: a
rule's `views` selects which outputs it touches.  `user_view` rules affect
only the user-facing output, `assistant_view` rules only the
assistant-facing output; but an `original` rule "modifies the underlying
data and therefore affects all views".  Rule application is one `re.sub`
pass per message content. -/

/-- A rule's view selector. -/
inductive RuleView where
  | original | user_view | assistant_view
  deriving DecidableEq, Repr

/-- A regex replacement rule (`find_regex`, `replace_regex`, `views`). -/
structure RegexRule where
  find : String
  repl : String
  views : List RuleView
  deriving DecidableEq, Repr

/-- Apply one rule to one message content (`re.sub` with the rule's
pattern). -/
def applyRuleToContent (r : RegexRule) (s : String) : String :=
  String.mk (reSub (tryLit r.find.data r.repl.data) s.data)

/-- Apply one rule to every message of a view. -/
def applyRuleToMsgs (r : RegexRule) (msgs : List String) : List String :=
  msgs.map (applyRuleToContent r)

/-- The three outputs of the pipeline. -/
structure ViewsOut where
  original : List String
  user_view : List String
  assistant_view : List String
  deriving DecidableEq, Repr

/-- The view pipeline: rules selecting `original` rewrite the underlying
message list itself; the user and assistant outputs are then derived from
that (possibly rewritten) base, each applying only its own view's rules. -/
def applyRegexViews (canonical : List String) (rules : List RegexRule) : ViewsOut :=
  let base := rules.foldl
    (fun acc r => if RuleView.original ∈ r.views then applyRuleToMsgs r acc else acc)
    canonical
  { original := base
    user_view := rules.foldl
      (fun acc r => if RuleView.user_view ∈ r.views then applyRuleToMsgs r acc else acc)
      base
    assistant_view := rules.foldl
      (fun acc r => if RuleView.assistant_view ∈ r.views then applyRuleToMsgs r acc else acc)
      base }

/-- C1. Counterexample: a rule whose `views` selector names the original
view does not leave the canonical list untouched — it rewrites the
underlying data, and the change is observable in every view.  With
canonical `["a"]` and the original-view rule `a → b`, the canonical output
becomes `["b"]`, and both audience views (to which no rule applies) show
`["b"]` as well, unlike the rule-free pipeline. -/
theorem c1_views_counterexample :
    (applyRegexViews ["a"] [⟨"a", "b", [.original]⟩]).original = ["b"] ∧
    (applyRegexViews ["a"] [⟨"a", "b", [.original]⟩]).original ≠ ["a"] ∧
    (applyRegexViews ["a"] [⟨"a", "b", [.original]⟩]).user_view = ["b"] ∧
    (applyRegexViews ["a"] [⟨"a", "b", [.original]⟩]).assistant_view = ["b"] ∧
    (applyRegexViews ["a"] []).user_view = ["a"] := by
  refine ⟨by decide, by decide, by decide, by decide, by decide⟩

theorem foldl_skip_view (v : RuleView) :
    ∀ (rules : List RegexRule) (acc : List String),
      (∀ r ∈ rules, v ∉ r.views) →
      rules.foldl
        (fun acc r => if v ∈ r.views then applyRuleToMsgs r acc else acc) acc = acc := by
  intro rules
  induction rules with
  | nil => intro acc _; rfl
  | cons r rest ih =>
    intro acc h
    have hr : v ∉ r.views := h r (List.mem_cons_self r rest)
    simp only [List.foldl_cons, if_neg hr]
    exact ih acc (fun r' hr' => h r' (List.mem_cons_of_mem _ hr'))

/-- C1 (amended). Rule application is pure (each view output is a new list
computed by `applyRegexViews`), and independence holds for the audience
views: when no rule selects `original` the canonical list is returned
unchanged, and a rule selecting only audience views other than a given one
leaves that view's output exactly as it would be without the rule.  A rule
whose `views` names `original`, however, rewrites the underlying data and
is thereby observable in every view — the documented behavior of the
original selector. -/
theorem c1_views_amended :
    (∀ (canonical : List String) (rules : List RegexRule),
      (∀ r ∈ rules, RuleView.original ∉ r.views) →
      (applyRegexViews canonical rules).original = canonical) ∧
    (∀ (canonical : List String) (rules : List RegexRule) (r : RegexRule),
      RuleView.original ∉ r.views → RuleView.assistant_view ∉ r.views →
      (applyRegexViews canonical (r :: rules)).assistant_view
        = (applyRegexViews canonical rules).assistant_view) ∧
    (∀ (canonical : List String) (rules : List RegexRule) (r : RegexRule),
      RuleView.original ∉ r.views → RuleView.user_view ∉ r.views →
      (applyRegexViews canonical (r :: rules)).user_view
        = (applyRegexViews canonical rules).user_view) := by
  refine ⟨?_, ?_, ?_⟩
  · intro canonical rules h
    exact foldl_skip_view RuleView.original rules canonical h
  · intro canonical rules r h1 h2
    simp only [applyRegexViews, List.foldl_cons, if_neg h1, if_neg h2]
  · intro canonical rules r h1 h2
    simp only [applyRegexViews, List.foldl_cons, if_neg h1, if_neg h2]

/-- C1 amended, witness: a user-view-only rule leaves the canonical list and
the assistant view untouched. -/
theorem c1_views_amended_witness :
    (applyRegexViews ["x"] [⟨"x", "y", [.user_view]⟩]).original = ["x"] ∧
    (applyRegexViews ["x"] [⟨"x", "y", [.user_view]⟩]).assistant_view
      = (applyRegexViews ["x"] []).assistant_view :=
  ⟨c1_views_amended.1 ["x"] [⟨"x", "y", [.user_view]⟩] (by decide),
   c1_views_amended.2.1 ["x"] [] ⟨"x", "y", [.user_view]⟩ (by decide) (by decide)⟩

/-! ## Pre-skip rule placement

Modelled from the spec: the implementation of the `before_macro_skip`
placement is not among the quoted sources; the regex-rule document
describes it as "find every embedded `\x7b\x7b...\x7d\x7d` span, replace
each with a temporary placeholder, apply the regex substitution, then put
the spans back".  That is embedded here as a segmentation: the content is
split into macro spans and plain-text runs, the rule's substitution is
applied to the plain-text runs only, and the spans are re-emitted verbatim
in place. -/

/-- A segment of content: a plain-text run, or one embedded
`\x7b\x7b...\x7d\x7d` span (held by its body). -/
inductive Seg where
  | text (cs : List Char)
  | span (body : List Char)
  deriving DecidableEq, Repr

/-- Is the segment an embedded-expression span? -/
def Seg.isSpan : Seg → Bool
  | .text _ => false
  | .span _ => true

/-- Prepend a character to the leading plain-text run. -/
def consText (c : Char) : List Seg → List Seg
  | .text t :: rest => .text (c :: t) :: rest
  | segs => .text [c] :: segs

/-- Split content into macro spans and plain-text runs (the "find every
macro" step), fuel = length. -/
def splitSpansF : Nat → List Char → List Seg
  | 0, [] => []
  | 0, cs => [.text cs]
  | _ + 1, [] => []
  | n + 1, c :: rest =>
    if c = '{' ∧ rest.head? = some '{' then
      match findCloseBr rest.tail with
      | some p => .span p.1 :: splitSpansF n p.2
      | none => [.text (c :: rest)]
    else consText c (splitSpansF n rest)

/-- Split a whole content. -/
def splitSpans (cs : List Char) : List Seg := splitSpansF cs.length cs

/-- Re-emit the segments (the "restore the placeholders" step). -/
def joinSegs : List Seg → List Char
  | [] => []
  | .text t :: rest => t ++ joinSegs rest
  | .span b :: rest => '{' :: '{' :: (b ++ '}' :: '}' :: joinSegs rest)

/-- Apply a substitution to the plain-text runs only, leaving every span
untouched. -/
def preSkipSegs (f : List Char → List Char) (segs : List Seg) : List Seg :=
  segs.map fun s =>
    match s with
    | .text t => .text (f t)
    | .span b => .span b

/-- A `before_macro_skip` rule application: protect the spans, substitute,
restore. -/
def applyPreSkip (f : List Char → List Char) (s : String) : String :=
  String.mk (joinSegs (preSkipSegs f (splitSpans s.data)))

theorem findCloseBr_decomp :
    ∀ (xs b r : List Char), findCloseBr xs = some (b, r) → xs = b ++ '}' :: '}' :: r := by
  intro xs
  induction xs with
  | nil => intro b r h; simp [findCloseBr] at h
  | cons c rest ih =>
    intro b r h
    rw [findCloseBr] at h
    by_cases hc : c = '}' ∧ rest.head? = some '}'
    · rw [if_pos hc] at h
      simp only [Option.some.injEq, Prod.mk.injEq] at h
      obtain ⟨hb, hr⟩ := h
      subst hb; subst hr
      obtain ⟨t, rfl⟩ : ∃ t, rest = '}' :: t := by
        cases rest with
        | nil => simp at hc
        | cons x xs =>
          simp only [List.head?_cons, Option.some.injEq] at hc
          exact ⟨xs, by rw [hc.2]⟩
      simp [hc.1]
    · rw [if_neg hc] at h
      cases hf : findCloseBr rest with
      | none => rw [hf] at h; simp at h
      | some p =>
        rw [hf] at h
        simp only [Option.map, Option.some.injEq, Prod.mk.injEq] at h
        obtain ⟨hb, hr⟩ := h
        subst hb; subst hr
        rw [List.cons_append]
        rw [← ih p.1 p.2 hf]

theorem joinSegs_consText (c : Char) (segs : List Seg) :
    joinSegs (consText c segs) = c :: joinSegs segs := by
  cases segs with
  | nil => rfl
  | cons s rest =>
    cases s with
    | text t => rfl
    | span b => rfl

theorem joinSegs_splitSpansF :
    ∀ (n : Nat) (cs : List Char), cs.length ≤ n → joinSegs (splitSpansF n cs) = cs := by
  intro n
  induction n with
  | zero =>
    intro cs h
    have : cs = [] := List.eq_nil_of_length_eq_zero (Nat.le_zero.mp h)
    subst this
    rfl
  | succ n ih =>
    intro cs h
    cases cs with
    | nil => rfl
    | cons c rest =>
      rw [splitSpansF]
      by_cases hc : c = '{' ∧ rest.head? = some '{'
      · rw [if_pos hc]
        cases hf : findCloseBr rest.tail with
        | none =>
          show joinSegs [Seg.text (c :: rest)] = c :: rest
          simp [joinSegs]
        | some p =>
          obtain ⟨t, rfl⟩ : ∃ t, rest = '{' :: t := by
            cases rest with
            | nil => simp at hc
            | cons x xs =>
              simp only [List.head?_cons, Option.some.injEq] at hc
              exact ⟨xs, by rw [hc.2]⟩
          have hdec := findCloseBr_decomp _ p.1 p.2 hf
          simp only [List.tail_cons] at hdec
          have hlen : p.2.length ≤ n := by
            have := findCloseBr_some_length _ p.1 p.2 hf
            simp only [List.tail_cons] at this
            simp only [List.length_cons] at h
            omega
          show joinSegs (.span p.1 :: splitSpansF n p.2) = c :: '{' :: t
          rw [joinSegs]
          rw [ih p.2 hlen, hc.1, hdec]
      · rw [if_neg hc]
        rw [joinSegs_consText]
        rw [ih rest (by simp only [List.length_cons] at h; omega)]

theorem preSkipSegs_filter_spans (f : List Char → List Char) :
    ∀ segs : List Seg,
      (preSkipSegs f segs).filter Seg.isSpan = segs.filter Seg.isSpan := by
  intro segs
  induction segs with
  | nil => rfl
  | cons s rest ih =>
    cases s with
    | text t => simpa [preSkipSegs, List.filter, Seg.isSpan] using ih
    | span b => simpa [preSkipSegs, List.filter, Seg.isSpan] using ih

/-- C10 (spec-modelled). A pre-skip rule protects every embedded-expression
span before matching and restores it verbatim afterwards: (i) the
protect/restore round-trip is lossless (`joinSegs ∘ splitSpans` is the
identity, so with the identity substitution the content is returned
byte-for-byte); (ii) for every substitution `f` — in particular one whose
find-pattern matches text inside an expression or inside its string
literal — the spans of the content are preserved exactly, `f` touching
only the plain-text runs; (iii) concretely, rewriting `y → z` over
`\x7b\x7bgetvar::"y"\x7d\x7d y` changes only the trailing `y`, leaving the
expression (string literal included) byte-for-byte unchanged. -/
theorem c10_preskip_protects_expressions :
    (∀ s : String, applyPreSkip (fun t => t) s = s) ∧
    (∀ (f : List Char → List Char) (segs : List Seg),
      (preSkipSegs f segs).filter Seg.isSpan = segs.filter Seg.isSpan) ∧
    applyPreSkip (fun t => reSub (tryLit "y".data "z".data) t)
        "\x7b\x7bgetvar::\"y\"\x7d\x7d y"
      = "\x7b\x7bgetvar::\"y\"\x7d\x7d z" := by
  refine ⟨?_, preSkipSegs_filter_spans, by decide⟩
  intro s
  unfold applyPreSkip
  have hid : preSkipSegs (fun t => t) (splitSpans s.data) = splitSpans s.data := by
    unfold preSkipSegs
    rw [show (fun s : Seg => match s with
      | .text t => Seg.text t
      | .span b => Seg.span b) = id from by
        funext x; cases x <;> rfl]
    exact List.map_id _
  rw [hid]
  unfold splitSpans
  rw [joinSegs_splitSpansF s.data.length s.data le_rfl]

end Odysseia
